import Mathlib

/-!
Verification development for the tlx repository core: the `ByteRingBuffer`
byte queue (`tlx/byte_ring_buffer.cpp`) and the `ExecPipe` pipeline engine
(`tlx/exec_pipe.cpp`).  Machine integers (`size_t`) are modelled as `Nat`;
byte values are modelled as `Nat`; the raw memory region `data_` is modelled
as a `List Nat` whose length is `buff_size_`.
-/

set_option maxHeartbeats 1000000
set_option maxRecDepth 40000

namespace Tlx

/-! ## The capacity growth loop of `ByteRingBuffer::write`

The C++ loop (byte_ring_buffer.cpp:64-69) is

    size_t newbuffsize = buff_size_;
    while (newbuffsize < size_ + len) {
      if (newbuffsize == 0) newbuffsize = 1024;
      else newbuffsize = newbuffsize * 2;
    }

`growAux` renders the loop with an explicit iteration bound (fuel); since the
running value increases by at least one per iteration, `need` iterations
always suffice, which `growAux_fuel_irrel` makes precise, so `growLoop` is
the exact function the loop computes. -/

/-- Fuel-bounded rendering of the doubling loop: with fuel `f`, current value
`n` and target `need`, iterate `n := (n == 0 ? 1024 : 2*n)` while `n < need`. -/
def growAux : Nat → Nat → Nat → Nat
  | 0, n, _ => n
  | f + 1, n, need =>
    if n < need then growAux f (if n = 0 then 1024 else n * 2) need else n

/-- Capacity growth of `ByteRingBuffer::write`: double (starting from 1024
when the buffer was unallocated) until the value reaches `need`. -/
def growLoop (cap need : Nat) : Nat :=
  growAux need cap need

/-- One loop iteration step value. -/
def growStep (n : Nat) : Nat := if n = 0 then 1024 else n * 2

theorem growAux_succ (f n need : Nat) :
    growAux (f + 1) n need =
      if n < need then growAux f (growStep n) need else n := by
  simp [growAux, growStep]

theorem growStep_gt (n : Nat) : n < growStep n := by
  unfold growStep
  split <;> omega

/-- With enough fuel the loop result reaches the target. -/
theorem growAux_ge (f n need : Nat) (h : need ≤ n + f) :
    need ≤ growAux f n need := by
  induction f generalizing n with
  | zero => simpa using h
  | succ f ih =>
    rw [growAux_succ]
    split
    · exact ih (growStep n) (by have := growStep_gt n; omega)
    · omega

/-- The loop never decreases its running value. -/
theorem growAux_ge_start (f n need : Nat) : n ≤ growAux f n need := by
  induction f generalizing n with
  | zero => simp [growAux]
  | succ f ih =>
    rw [growAux_succ]
    split
    · exact le_trans (le_of_lt (growStep_gt n)) (ih (growStep n))
    · exact le_rfl

/-- Extra fuel beyond what the loop consumes is irrelevant. -/
theorem growAux_fuel_irrel (f n need : Nat) (h : need ≤ n + f) :
    growAux (f + 1) n need = growAux f n need := by
  induction f generalizing n with
  | zero =>
    rw [growAux_succ]
    simp only [growAux]
    rw [if_neg (by omega)]
  | succ f ih =>
    rw [growAux_succ (f + 1) n, growAux_succ f n]
    split
    · exact ih (growStep n) (by have := growStep_gt n; omega)
    · rfl

/-- Unfolding equation of the loop: done when the target is met. -/
theorem growLoop_eq_self (cap need : Nat) (h : need ≤ cap) :
    growLoop cap need = cap := by
  unfold growLoop
  cases need with
  | zero => cases cap <;> simp [growAux]
  | succ m =>
    rw [growAux_succ]
    simp only [if_neg (by omega : ¬ cap < m + 1)]

/-- Unfolding equation of the loop: one more iteration while below target. -/
theorem growLoop_step (cap need : Nat) (h : cap < need) :
    growLoop cap need = growLoop (growStep cap) need := by
  unfold growLoop
  have h1 : growAux need cap need = growAux (need - 1 + 1) cap need := by
    congr 1
    omega
  rw [h1, growAux_succ, if_pos h]
  have h2 : growAux need (growStep cap) need
      = growAux (need - 1 + 1) (growStep cap) need := by
    congr 1
    omega
  rw [h2, growAux_fuel_irrel]
  have := growStep_gt cap
  omega

theorem growLoop_ge_need (cap need : Nat) : need ≤ growLoop cap need :=
  growAux_ge need cap need (by omega)

theorem growLoop_ge_start (cap need : Nat) : cap ≤ growLoop cap need :=
  growAux_ge_start need cap need

/-- Capacities the buffer can reach: 0 before the first allocation, or a
power-of-two multiple of 1024 afterwards. -/
def capForm (c : Nat) : Prop := c = 0 ∨ ∃ j, c = 1024 * 2 ^ j

theorem growAux_pos_form (f n need : Nat) (hn : 0 < n) :
    ∃ k, growAux f n need = n * 2 ^ k := by
  induction f generalizing n with
  | zero => exact ⟨0, by simp [growAux]⟩
  | succ f ih =>
    rw [growAux_succ]
    split
    · have hstep : growStep n = n * 2 := by
        unfold growStep
        rw [if_neg (by omega)]
      rw [hstep] at *
      obtain ⟨k, hk⟩ := ih (n * 2) (by omega)
      exact ⟨k + 1, by rw [hk]; ring⟩
    · exact ⟨0, by simp⟩

theorem growAux_pos_min (f n need j : Nat) (hn : 0 < n)
    (hj : need ≤ n * 2 ^ j) : growAux f n need ≤ n * 2 ^ j := by
  induction f generalizing n j with
  | zero =>
    simp only [growAux]
    exact Nat.le_mul_of_pos_right n (Nat.pos_pow_of_pos j (by omega))
  | succ f ih =>
    rw [growAux_succ]
    split
    · have hstep : growStep n = n * 2 := by
        unfold growStep
        rw [if_neg (by omega)]
      rw [hstep]
      have hj1 : 1 ≤ j := by
        rcases Nat.eq_zero_or_pos j with h0 | h1
        · subst h0
          simp at hj
          omega
        · exact h1
      have : n * 2 ^ j = n * 2 * 2 ^ (j - 1) := by
        rw [Nat.mul_assoc, ← pow_succ']
        congr 1
        congr 1
        omega
      rw [this] at hj ⊢
      exact ih (n * 2) (j - 1) (by omega) hj
    · exact Nat.le_mul_of_pos_right n (Nat.pos_pow_of_pos j (by omega))

theorem growAux_capForm (f n need : Nat) (h : capForm n) :
    capForm (growAux f n need) := by
  induction f generalizing n with
  | zero => simpa [growAux] using h
  | succ f ih =>
    rw [growAux_succ]
    split
    · apply ih
      unfold growStep
      rcases h with h0 | ⟨j, hj⟩
      · rw [if_pos h0]
        exact Or.inr ⟨0, by norm_num⟩
      · rw [if_neg (by rw [hj]; positivity)]
        exact Or.inr ⟨j + 1, by rw [hj]; ring⟩
    · exact h

theorem growLoop_capForm (cap need : Nat) (h : capForm cap) :
    capForm (growLoop cap need) :=
  growAux_capForm need cap need h

/-- Characterization of the grown capacity on reachable capacities: the least
value of the form `max 1024 cap * 2 ^ k` that is at least `need`. -/
theorem growLoop_spec (cap need : Nat) (hcap : capForm cap) (h : cap < need) :
    (∃ k, growLoop cap need = max 1024 cap * 2 ^ k) ∧
    need ≤ growLoop cap need ∧
    (∀ j, need ≤ max 1024 cap * 2 ^ j →
      growLoop cap need ≤ max 1024 cap * 2 ^ j) := by
  rcases hcap with h0 | ⟨j, hj⟩
  · subst h0
    have hstep : growLoop 0 need = growLoop 1024 need := by
      rw [growLoop_step 0 need h]
      rfl
    have hmax : max 1024 0 = 1024 := by norm_num
    rw [hstep, hmax]
    refine ⟨growAux_pos_form need 1024 need (by omega),
      growLoop_ge_need 1024 need, ?_⟩
    intro k hk
    exact growAux_pos_min need 1024 need k (by omega) hk
  · have hpos : 0 < cap := by rw [hj]; positivity
    have hmax : max 1024 cap = cap := by
      apply Nat.max_eq_right
      rw [hj]
      calc 1024 = 1024 * 1 := by norm_num
        _ ≤ 1024 * 2 ^ j := by
          exact Nat.mul_le_mul_left 1024 (Nat.one_le_two_pow)
    rw [hmax]
    exact ⟨growAux_pos_form need cap need hpos, growLoop_ge_need cap need,
      fun k hk => growAux_pos_min need cap need k hpos hk⟩

/-! ## ByteRingBuffer data model

Translated from `tlx/byte_ring_buffer.{hpp,cpp}`.  The allocated memory block
`data_` is a `List Nat` of length `buff_size_`; bytes appended by `realloc`
growth are modelled as zeroes (the C code leaves them unspecified and never
reads them before writing them). -/

structure ByteRingBuffer where
  data_ : List Nat
  buff_size_ : Nat
  size_ : Nat
  bottom_ : Nat
deriving Repr, DecidableEq

namespace ByteRingBuffer

/-- Default constructor `ByteRingBuffer()` (byte_ring_buffer.cpp:18-19). -/
def init : ByteRingBuffer := ⟨[], 0, 0, 0⟩

/-- Accessor `size()` (byte_ring_buffer.cpp:25-27). -/
def size (rb : ByteRingBuffer) : Nat := rb.size_

/-- Accessor `buff_size()` (byte_ring_buffer.cpp:29-31). -/
def buff_size (rb : ByteRingBuffer) : Nat := rb.buff_size_

/-- Method `clear()` (byte_ring_buffer.cpp:33-35). -/
def clear (rb : ByteRingBuffer) : ByteRingBuffer :=
  { rb with size_ := 0, bottom_ := 0 }

/-- Method `bottom_size()` (byte_ring_buffer.cpp:41-45). -/
def bottom_size (rb : ByteRingBuffer) : Nat :=
  if rb.buff_size_ < rb.bottom_ + rb.size_
  then rb.buff_size_ - rb.bottom_
  else rb.size_

/-- The bytes visible through `bottom()` / `bottom_size()`: `bottom_size`
bytes of `data_` starting at offset `bottom_` (byte_ring_buffer.cpp:37-39). -/
def bottomSlice (rb : ByteRingBuffer) : List Nat :=
  (rb.data_.drop rb.bottom_).take rb.bottom_size

/-- Method `advance(n)` (byte_ring_buffer.cpp:47-52); the caller must respect
the assertion `size_ >= n`. -/
def advance (rb : ByteRingBuffer) (n : Nat) : ByteRingBuffer :=
  { rb with
    bottom_ := if rb.buff_size_ ≤ rb.bottom_ + n
      then rb.bottom_ + n - rb.buff_size_ else rb.bottom_ + n,
    size_ := rb.size_ - n }

/-- Overwrite the region `[pos, pos + s.length)` of `l` with `s`; the model
of `std::copy(s.begin(), s.end(), l.begin() + pos)`. -/
def setSeg (l : List Nat) (pos : Nat) (s : List Nat) : List Nat :=
  l.take pos ++ s ++ l.drop (pos + s.length)

/-- Growth part of `write` (byte_ring_buffer.cpp:59-87): reallocate to the
doubled size and relocate the wrapped tail to the new buffer end. -/
def growState (rb : ByteRingBuffer) (len : Nat) : ByteRingBuffer :=
  if rb.buff_size_ < rb.size_ + len then
    if rb.buff_size_ < rb.bottom_ + rb.size_ then
      { data_ := setSeg
          (rb.data_ ++ List.replicate
            (growLoop rb.buff_size_ (rb.size_ + len) - rb.buff_size_) 0)
          (growLoop rb.buff_size_ (rb.size_ + len) - (rb.buff_size_ - rb.bottom_))
          (((rb.data_ ++ List.replicate
              (growLoop rb.buff_size_ (rb.size_ + len) - rb.buff_size_) 0).drop
            rb.bottom_).take (rb.buff_size_ - rb.bottom_)),
        buff_size_ := growLoop rb.buff_size_ (rb.size_ + len),
        size_ := rb.size_,
        bottom_ := growLoop rb.buff_size_ (rb.size_ + len)
          - (rb.buff_size_ - rb.bottom_) }
    else
      { rb with
        data_ := rb.data_ ++ List.replicate
          (growLoop rb.buff_size_ (rb.size_ + len) - rb.buff_size_) 0,
        buff_size_ := growLoop rb.buff_size_ (rb.size_ + len) }
  else rb

/-- Placement part of `write` (byte_ring_buffer.cpp:89-118): the new block
fits, copy it into the middle space, the tail, or split across the wrap. -/
def placeBytes (rb1 : ByteRingBuffer) (src : List Nat) : ByteRingBuffer :=
  if rb1.buff_size_ < rb1.bottom_ + rb1.size_ then
    { rb1 with
      data_ := setSeg rb1.data_ (rb1.bottom_ + rb1.size_ - rb1.buff_size_) src,
      size_ := rb1.size_ + src.length }
  else
    if src.length ≤ rb1.buff_size_ - (rb1.bottom_ + rb1.size_) then
      { rb1 with
        data_ := setSeg rb1.data_ (rb1.bottom_ + rb1.size_) src,
        size_ := rb1.size_ + src.length }
    else
      { rb1 with
        data_ := setSeg (setSeg rb1.data_ (rb1.bottom_ + rb1.size_)
            (src.take (rb1.buff_size_ - (rb1.bottom_ + rb1.size_)))) 0
          (src.drop (rb1.buff_size_ - (rb1.bottom_ + rb1.size_))),
        size_ := rb1.size_ + src.length }

/-- Method `write(src, len)` (byte_ring_buffer.cpp:54-119) with `len`
implicit as `src.length`. -/
def write (rb : ByteRingBuffer) (src : List Nat) : ByteRingBuffer :=
  if src.length = 0 then rb
  else placeBytes (growState rb src.length) src

/-- Structural invariant of the ring buffer state. -/
def Inv (rb : ByteRingBuffer) : Prop :=
  rb.data_.length = rb.buff_size_ ∧ rb.size_ ≤ rb.buff_size_ ∧
    (rb.bottom_ < rb.buff_size_ ∨ (rb.bottom_ = 0 ∧ rb.buff_size_ = 0))

instance (rb : ByteRingBuffer) : Decidable rb.Inv := by
  unfold Inv
  infer_instance

/-- Logical FIFO content of the buffer: the bytes of `[bottom, bottom + size)`
modulo `buff_size`. -/
def content (rb : ByteRingBuffer) : List Nat :=
  if rb.buff_size_ < rb.bottom_ + rb.size_ then
    rb.data_.drop rb.bottom_ ++ rb.data_.take (rb.bottom_ + rb.size_ - rb.buff_size_)
  else (rb.data_.drop rb.bottom_).take rb.size_

theorem take_app_le {l1 l2 : List Nat} {n : Nat} (h : n ≤ l1.length) :
    (l1 ++ l2).take n = l1.take n := by
  rw [List.take_append_eq_append_take, Nat.sub_eq_zero_of_le h]
  simp

theorem drop_app_le {l1 l2 : List Nat} {n : Nat} (h : n ≤ l1.length) :
    (l1 ++ l2).drop n = l1.drop n ++ l2 := by
  rw [List.drop_append_eq_append_drop, Nat.sub_eq_zero_of_le h]
  simp

theorem take_app_ge {l1 l2 : List Nat} {n : Nat} (h : l1.length ≤ n) :
    (l1 ++ l2).take n = l1 ++ l2.take (n - l1.length) := by
  rw [List.take_append_eq_append_take, List.take_of_length_le h]

theorem drop_app_ge {l1 l2 : List Nat} {n : Nat} (h : l1.length ≤ n) :
    (l1 ++ l2).drop n = l2.drop (n - l1.length) := by
  rw [List.drop_append_eq_append_drop, List.drop_of_length_le h]
  simp

theorem setSeg_length {l s : List Nat} {pos : Nat} (h : pos + s.length ≤ l.length) :
    (setSeg l pos s).length = l.length := by
  simp only [setSeg, List.length_append, List.length_take, List.length_drop]
  omega

/-- Content length equals the occupancy count. -/
theorem content_length (rb : ByteRingBuffer) (h : rb.Inv) :
    rb.content.length = rb.size_ := by
  obtain ⟨hlen, hsz, hbot⟩ := h
  unfold content
  split
  · simp only [List.length_append, List.length_drop, List.length_take]
    omega
  · simp only [List.length_take, List.length_drop]
    omega

/-- The reallocation-and-relocation step preserves the invariant and the
logical content, keeps the occupancy, and reaches a capacity that fits the
request. -/
theorem growState_spec (rb : ByteRingBuffer) (len : Nat) (h : rb.Inv) :
    (growState rb len).Inv ∧ (growState rb len).content = rb.content ∧
    (growState rb len).size_ = rb.size_ ∧
    rb.size_ + len ≤ (growState rb len).buff_size_ ∧
    rb.buff_size_ ≤ (growState rb len).buff_size_ := by
  obtain ⟨hlen, hsz, hbot⟩ := h
  unfold growState
  by_cases hg : rb.buff_size_ < rb.size_ + len
  case neg =>
    rw [if_neg hg]
    exact ⟨⟨hlen, hsz, hbot⟩, rfl, rfl, by omega, le_rfl⟩
  case pos =>
    rw [if_pos hg]
    have hge : rb.size_ + len ≤ growLoop rb.buff_size_ (rb.size_ + len) :=
      growLoop_ge_need _ _
    have hcle : rb.buff_size_ ≤ growLoop rb.buff_size_ (rb.size_ + len) :=
      growLoop_ge_start _ _
    by_cases hw : rb.buff_size_ < rb.bottom_ + rb.size_
    case neg =>
      rw [if_neg hw]
      have hdlen : (rb.data_ ++ List.replicate
          (growLoop rb.buff_size_ (rb.size_ + len) - rb.buff_size_) 0).length
          = growLoop rb.buff_size_ (rb.size_ + len) := by
        simp only [List.length_append, List.length_replicate]
        omega
      refine ⟨⟨hdlen, by simpa using le_trans hsz hcle, ?_⟩, ?_, rfl, hge, hcle⟩
      · rcases hbot with hb | ⟨hb0, hc0⟩
        · exact Or.inl (lt_of_lt_of_le hb hcle)
        · left
          simp only [hb0]
          omega
      · show content _ = content rb
        unfold content
        rw [if_neg (by simp only []; omega), if_neg (by omega)]
        simp only []
        rw [drop_app_le (by omega), List.take_append_eq_append_take]
        have h1 : (rb.data_.drop rb.bottom_).length = rb.buff_size_ - rb.bottom_ := by
          rw [List.length_drop, hlen]
        rw [h1, Nat.sub_eq_zero_of_le (by omega)]
        simp
    case pos =>
      rw [if_pos hw]
      -- wrapped state: relocate the tail of length `taillen` to the new end
      have hb : rb.bottom_ < rb.buff_size_ := by
        rcases hbot with hb | ⟨hb0, hc0⟩
        · exact hb
        · omega
      set nbs := growLoop rb.buff_size_ (rb.size_ + len) with hnbs
      set tl := rb.buff_size_ - rb.bottom_ with htl
      have htlpos : 0 < tl := by omega
      have htls : tl < rb.size_ := by omega
      have hdlen : (rb.data_ ++ List.replicate (nbs - rb.buff_size_) 0).length = nbs := by
        simp only [List.length_append, List.length_replicate]
        omega
      have hdroplen : (rb.data_.drop rb.bottom_).length = tl := by
        rw [List.length_drop, hlen]
      have htail : ((rb.data_ ++ List.replicate (nbs - rb.buff_size_) 0).drop
          rb.bottom_).take tl = rb.data_.drop rb.bottom_ := by
        rw [drop_app_le (by omega), take_app_le (by rw [hdroplen]),
          List.take_of_length_le (by rw [hdroplen])]
      have hseg : setSeg (rb.data_ ++ List.replicate (nbs - rb.buff_size_) 0)
          (nbs - tl) (((rb.data_ ++ List.replicate (nbs - rb.buff_size_) 0).drop
            rb.bottom_).take tl)
          = (rb.data_ ++ List.replicate (nbs - rb.buff_size_) 0).take (nbs - tl)
            ++ rb.data_.drop rb.bottom_ := by
        have hnil : (rb.data_ ++ List.replicate (nbs - rb.buff_size_) 0).drop
            (nbs - tl + tl) = ([] : List Nat) :=
          List.drop_eq_nil_of_le (by rw [hdlen]; omega)
        unfold setSeg
        rw [htail, hdroplen, hnil, List.append_nil]
      rw [hseg]
      have hfront : ((rb.data_ ++ List.replicate (nbs - rb.buff_size_) 0).take
          (nbs - tl)).length = nbs - tl :=
        List.length_take_of_le (by rw [hdlen]; omega)
      have hseglen : ((rb.data_ ++ List.replicate (nbs - rb.buff_size_) 0).take
          (nbs - tl) ++ rb.data_.drop rb.bottom_).length = nbs := by
        rw [List.length_append, hfront, hdroplen]
        omega
      refine ⟨⟨hseglen, show rb.size_ ≤ nbs from le_trans hsz hcle,
        Or.inl (show nbs - tl < nbs by omega)⟩, ?_, rfl, hge, hcle⟩
      show content _ = content rb
      unfold content
      rw [if_pos (show nbs < nbs - tl + rb.size_ by omega), if_pos (by omega)]
      show ((rb.data_ ++ _).take (nbs - tl) ++ rb.data_.drop rb.bottom_).drop (nbs - tl)
          ++ ((rb.data_ ++ _).take (nbs - tl) ++ rb.data_.drop rb.bottom_).take
              (nbs - tl + rb.size_ - nbs) = _
      rw [drop_app_ge (by rw [hfront]), hfront, Nat.sub_self, List.drop_zero]
      rw [take_app_le (by rw [hfront]; omega), List.take_take]
      have hmin : (nbs - tl + rb.size_ - nbs) ⊓ (nbs - tl) = nbs - tl + rb.size_ - nbs := by
        omega
      rw [hmin, take_app_le (by rw [hlen]; omega)]
      have : nbs - tl + rb.size_ - nbs = rb.bottom_ + rb.size_ - rb.buff_size_ := by
        omega
      rw [this]

/-- The placement step appends `src` to the logical content and preserves the
invariant, provided the block fits (which `growState` has ensured). -/
theorem placeBytes_spec (rb : ByteRingBuffer) (src : List Nat) (h : rb.Inv)
    (hfit : rb.size_ + src.length ≤ rb.buff_size_) :
    (placeBytes rb src).Inv ∧ (placeBytes rb src).content = rb.content ++ src ∧
    (placeBytes rb src).size_ = rb.size_ + src.length ∧
    (placeBytes rb src).buff_size_ = rb.buff_size_ ∧
    (placeBytes rb src).bottom_ = rb.bottom_ := by
  obtain ⟨hlen, hsz, hbot⟩ := h
  unfold placeBytes
  by_cases hw : rb.buff_size_ < rb.bottom_ + rb.size_
  case pos =>
    -- middle placement: content wraps, the free region is one middle span
    rw [if_pos hw]
    have hb : rb.bottom_ < rb.buff_size_ := by
      rcases hbot with hb | ⟨hb0, hc0⟩
      · exact hb
      · omega
    have hpos : rb.bottom_ + rb.size_ - rb.buff_size_ + src.length ≤ rb.bottom_ := by
      omega
    have hlen2 : (setSeg rb.data_ (rb.bottom_ + rb.size_ - rb.buff_size_)
        src).length = rb.buff_size_ := by
      rw [setSeg_length (by omega)]
      exact hlen
    refine ⟨⟨hlen2, show rb.size_ + src.length ≤ rb.buff_size_ by omega,
      Or.inl hb⟩, ?_, rfl, rfl, rfl⟩
    show content _ = content rb ++ src
    unfold content
    rw [if_pos (show rb.buff_size_ < rb.bottom_ + (rb.size_ + src.length) by omega),
      if_pos hw]
    show (setSeg rb.data_ (rb.bottom_ + rb.size_ - rb.buff_size_) src).drop rb.bottom_
        ++ (setSeg rb.data_ (rb.bottom_ + rb.size_ - rb.buff_size_) src).take
            (rb.bottom_ + (rb.size_ + src.length) - rb.buff_size_) = _
    unfold setSeg
    have htakelen : (rb.data_.take (rb.bottom_ + rb.size_ - rb.buff_size_)).length
        = rb.bottom_ + rb.size_ - rb.buff_size_ :=
      List.length_take_of_le (by omega)
    have hfirstlen : (rb.data_.take (rb.bottom_ + rb.size_ - rb.buff_size_)
        ++ src).length = rb.bottom_ + rb.size_ - rb.buff_size_ + src.length := by
      rw [List.length_append, htakelen]
    have hdrop : ((rb.data_.take (rb.bottom_ + rb.size_ - rb.buff_size_) ++ src)
        ++ rb.data_.drop (rb.bottom_ + rb.size_ - rb.buff_size_ + src.length)).drop
          rb.bottom_ = rb.data_.drop rb.bottom_ := by
      rw [drop_app_ge (by rw [hfirstlen]; omega), hfirstlen, List.drop_drop]
      congr 1
      omega
    have htake : ((rb.data_.take (rb.bottom_ + rb.size_ - rb.buff_size_) ++ src)
        ++ rb.data_.drop (rb.bottom_ + rb.size_ - rb.buff_size_ + src.length)).take
          (rb.bottom_ + (rb.size_ + src.length) - rb.buff_size_)
        = rb.data_.take (rb.bottom_ + rb.size_ - rb.buff_size_) ++ src := by
      rw [take_app_le (by rw [hfirstlen]; omega),
        List.take_of_length_le (by rw [hfirstlen]; omega)]
    rw [hdrop, htake, List.append_assoc]
  case neg =>
    rw [if_neg hw]
    by_cases htf : src.length ≤ rb.buff_size_ - (rb.bottom_ + rb.size_)
    case pos =>
      -- tail placement: the block fits between `bottom + size` and the end
      rw [if_pos htf]
      have hlen2 : (setSeg rb.data_ (rb.bottom_ + rb.size_) src).length
          = rb.buff_size_ := by
        rw [setSeg_length (by omega)]
        exact hlen
      refine ⟨⟨hlen2, show rb.size_ + src.length ≤ rb.buff_size_ by omega, ?_⟩,
        ?_, rfl, rfl, rfl⟩
      · rcases hbot with hb | ⟨hb0, hc0⟩
        · exact Or.inl hb
        · exact Or.inr ⟨hb0, hc0⟩
      show content _ = content rb ++ src
      unfold content
      rw [if_neg (show ¬ rb.buff_size_ < rb.bottom_ + (rb.size_ + src.length)
          by omega), if_neg hw]
      show ((setSeg rb.data_ (rb.bottom_ + rb.size_) src).drop rb.bottom_).take
          (rb.size_ + src.length) = _
      unfold setSeg
      have htakelen : (rb.data_.take (rb.bottom_ + rb.size_)).length
          = rb.bottom_ + rb.size_ :=
        List.length_take_of_le (by omega)
      have hfirstlen : (rb.data_.take (rb.bottom_ + rb.size_) ++ src).length
          = rb.bottom_ + rb.size_ + src.length := by
        rw [List.length_append, htakelen]
      rw [drop_app_le (by rw [hfirstlen]; omega),
        drop_app_le (by rw [htakelen]; omega), List.drop_take]
      have hs : rb.bottom_ + rb.size_ - rb.bottom_ = rb.size_ := by omega
      rw [hs]
      have hslen : ((rb.data_.drop rb.bottom_).take rb.size_ ++ src).length
          = rb.size_ + src.length := by
        rw [List.length_append,
          List.length_take_of_le (by rw [List.length_drop]; omega)]
      rw [take_app_le (by rw [hslen]),
        List.take_of_length_le (by rw [hslen])]
    case neg =>
      -- split placement: fill the tail, wrap the rest to the front
      rw [if_neg htf]
      have hTL : rb.buff_size_ - (rb.bottom_ + rb.size_) < src.length := by omega
      have hm : src.length - (rb.buff_size_ - (rb.bottom_ + rb.size_)) ≤ rb.bottom_ := by
        omega
      have htakeTlen : (src.take (rb.buff_size_ - (rb.bottom_ + rb.size_))).length
          = rb.buff_size_ - (rb.bottom_ + rb.size_) :=
        List.length_take_of_le (by omega)
      have htakelen : (rb.data_.take (rb.bottom_ + rb.size_)).length
          = rb.bottom_ + rb.size_ :=
        List.length_take_of_le (by omega)
      have hdata2 : setSeg rb.data_ (rb.bottom_ + rb.size_)
          (src.take (rb.buff_size_ - (rb.bottom_ + rb.size_)))
          = rb.data_.take (rb.bottom_ + rb.size_)
            ++ src.take (rb.buff_size_ - (rb.bottom_ + rb.size_)) := by
        unfold setSeg
        rw [htakeTlen]
        rw [List.drop_eq_nil_of_le (show rb.data_.length ≤ rb.bottom_ + rb.size_ +
          (rb.buff_size_ - (rb.bottom_ + rb.size_)) by omega), List.append_nil]
      rw [hdata2]
      have hdata2len : (rb.data_.take (rb.bottom_ + rb.size_)
          ++ src.take (rb.buff_size_ - (rb.bottom_ + rb.size_))).length
          = rb.buff_size_ := by
        rw [List.length_append, htakelen, htakeTlen]
        omega
      have hdroplen : (src.drop (rb.buff_size_ - (rb.bottom_ + rb.size_))).length
          = src.length - (rb.buff_size_ - (rb.bottom_ + rb.size_)) := by
        rw [List.length_drop]
      have hdata3 : setSeg (rb.data_.take (rb.bottom_ + rb.size_)
          ++ src.take (rb.buff_size_ - (rb.bottom_ + rb.size_))) 0
          (src.drop (rb.buff_size_ - (rb.bottom_ + rb.size_)))
          = src.drop (rb.buff_size_ - (rb.bottom_ + rb.size_))
            ++ (rb.data_.take (rb.bottom_ + rb.size_)
              ++ src.take (rb.buff_size_ - (rb.bottom_ + rb.size_))).drop
                (src.length - (rb.buff_size_ - (rb.bottom_ + rb.size_))) := by
        unfold setSeg
        rw [List.take_zero, List.nil_append, hdroplen, Nat.zero_add]
      rw [hdata3]
      have hlen3 : (src.drop (rb.buff_size_ - (rb.bottom_ + rb.size_))
          ++ (rb.data_.take (rb.bottom_ + rb.size_)
            ++ src.take (rb.buff_size_ - (rb.bottom_ + rb.size_))).drop
              (src.length - (rb.buff_size_ - (rb.bottom_ + rb.size_)))).length
          = rb.buff_size_ := by
        rw [List.length_append, hdroplen, List.length_drop, hdata2len]
        omega
      have hb : rb.bottom_ < rb.buff_size_ := by
        rcases hbot with hb | ⟨hb0, hc0⟩
        · exact hb
        · omega
      refine ⟨⟨hlen3, show rb.size_ + src.length ≤ rb.buff_size_ by omega,
        Or.inl hb⟩, ?_, rfl, rfl, rfl⟩
      show content _ = content rb ++ src
      unfold content
      rw [if_pos (show rb.buff_size_ < rb.bottom_ + (rb.size_ + src.length)
          by omega), if_neg hw]
      show (src.drop (rb.buff_size_ - (rb.bottom_ + rb.size_)) ++ _).drop rb.bottom_
          ++ (src.drop (rb.buff_size_ - (rb.bottom_ + rb.size_)) ++ _).take
            (rb.bottom_ + (rb.size_ + src.length) - rb.buff_size_) = _
      have htakepart : (src.drop (rb.buff_size_ - (rb.bottom_ + rb.size_))
          ++ (rb.data_.take (rb.bottom_ + rb.size_)
            ++ src.take (rb.buff_size_ - (rb.bottom_ + rb.size_))).drop
              (src.length - (rb.buff_size_ - (rb.bottom_ + rb.size_)))).take
          (rb.bottom_ + (rb.size_ + src.length) - rb.buff_size_)
          = src.drop (rb.buff_size_ - (rb.bottom_ + rb.size_)) := by
        rw [take_app_le (by rw [hdroplen]; omega),
          List.take_of_length_le (by rw [hdroplen]; omega)]
      have hdroppart : (src.drop (rb.buff_size_ - (rb.bottom_ + rb.size_))
          ++ (rb.data_.take (rb.bottom_ + rb.size_)
            ++ src.take (rb.buff_size_ - (rb.bottom_ + rb.size_))).drop
              (src.length - (rb.buff_size_ - (rb.bottom_ + rb.size_)))).drop
          rb.bottom_
          = (rb.data_.drop rb.bottom_).take rb.size_
            ++ src.take (rb.buff_size_ - (rb.bottom_ + rb.size_)) := by
        rw [drop_app_ge (by rw [hdroplen]; omega), hdroplen, List.drop_drop]
        have harith : src.length - (rb.buff_size_ - (rb.bottom_ + rb.size_))
            + (rb.bottom_ - (src.length - (rb.buff_size_ - (rb.bottom_ + rb.size_))))
            = rb.bottom_ := by
          omega
        rw [harith, drop_app_le (by rw [htakelen]; omega), List.drop_take]
        have hs : rb.bottom_ + rb.size_ - rb.bottom_ = rb.size_ := by omega
        rw [hs]
      rw [htakepart, hdroppart, List.append_assoc, List.take_append_drop]

/-- Occupancy after `growState` is unchanged. -/
theorem growState_size (rb : ByteRingBuffer) (len : Nat) :
    (growState rb len).size_ = rb.size_ := by
  unfold growState
  split
  · split <;> rfl
  · rfl

/-- Capacity after `growState` never decreases. -/
theorem growState_buff_ge (rb : ByteRingBuffer) (len : Nat) :
    rb.buff_size_ ≤ (growState rb len).buff_size_ := by
  unfold growState
  split
  · split
    · exact growLoop_ge_start _ _
    · exact growLoop_ge_start _ _
  · exact le_rfl

/-- Capacity after `growState` stays in the reachable capacity form. -/
theorem growState_capForm (rb : ByteRingBuffer) (len : Nat)
    (h : capForm rb.buff_size_) : capForm (growState rb len).buff_size_ := by
  unfold growState
  split
  · split
    · exact growLoop_capForm _ _ h
    · exact growLoop_capForm _ _ h
  · exact h

/-- Occupancy after `placeBytes` grows by the block length. -/
theorem placeBytes_size (rb1 : ByteRingBuffer) (src : List Nat) :
    (placeBytes rb1 src).size_ = rb1.size_ + src.length := by
  unfold placeBytes
  split
  · rfl
  · split <;> rfl

/-- Capacity after `placeBytes` is unchanged. -/
theorem placeBytes_buff (rb1 : ByteRingBuffer) (src : List Nat) :
    (placeBytes rb1 src).buff_size_ = rb1.buff_size_ := by
  unfold placeBytes
  split
  · rfl
  · split <;> rfl

/-- Occupancy accounting of `write`: it always adds exactly `len`. -/
theorem write_size (rb : ByteRingBuffer) (src : List Nat) :
    (rb.write src).size_ = rb.size_ + src.length := by
  unfold write
  split
  · omega
  · rw [placeBytes_size, growState_size]

/-- Capacity of `write` never decreases. -/
theorem write_buff_ge (rb : ByteRingBuffer) (src : List Nat) :
    rb.buff_size_ ≤ (rb.write src).buff_size_ := by
  unfold write
  split
  · exact le_rfl
  · rw [placeBytes_buff]
    exact growState_buff_ge rb src.length

/-- Capacity of `write` stays in the reachable capacity form. -/
theorem write_capForm (rb : ByteRingBuffer) (src : List Nat)
    (h : capForm rb.buff_size_) : capForm (rb.write src).buff_size_ := by
  unfold write
  split
  · exact h
  · rw [placeBytes_buff]
    exact growState_capForm rb src.length h

/-- Functional correctness of `write`: the invariant is preserved and the
block is appended to the logical content. -/
theorem write_spec (rb : ByteRingBuffer) (src : List Nat) (h : rb.Inv) :
    (rb.write src).Inv ∧ (rb.write src).content = rb.content ++ src := by
  unfold write
  by_cases h0 : src.length = 0
  · rw [if_pos h0]
    have hnil : src = [] := List.eq_nil_of_length_eq_zero h0
    subst hnil
    exact ⟨h, (List.append_nil _).symm⟩
  · rw [if_neg h0]
    obtain ⟨hinv1, hc1, hs1, hfit1, _⟩ := growState_spec rb src.length h
    obtain ⟨hinv2, hc2, _, _, _⟩ := placeBytes_spec (growState rb src.length) src
      hinv1 (by rw [hs1]; exact hfit1)
    exact ⟨hinv2, by rw [hc2, hc1]⟩

/-- Functional correctness of `advance`: it preserves the invariant, drops
the first `n` bytes of the logical content, and keeps the capacity. -/
theorem advance_spec (rb : ByteRingBuffer) (n : Nat) (h : rb.Inv)
    (hn : n ≤ rb.size_) :
    (rb.advance n).Inv ∧ (rb.advance n).content = rb.content.drop n ∧
    (rb.advance n).size_ = rb.size_ - n ∧
    (rb.advance n).buff_size_ = rb.buff_size_ := by
  obtain ⟨hlen, hsz, hbot⟩ := h
  unfold advance
  by_cases hw : rb.buff_size_ < rb.bottom_ + rb.size_
  case pos =>
    have hb : rb.bottom_ < rb.buff_size_ := by
      rcases hbot with hb | ⟨hb0, hc0⟩
      · exact hb
      · omega
    by_cases hcb : rb.buff_size_ ≤ rb.bottom_ + n
    case pos =>
      rw [if_pos hcb]
      refine ⟨⟨hlen, show rb.size_ - n ≤ rb.buff_size_ by omega,
        Or.inl (show rb.bottom_ + n - rb.buff_size_ < rb.buff_size_ by omega)⟩,
        ?_, rfl, rfl⟩
      show content _ = _
      unfold content
      rw [if_neg (show ¬ rb.buff_size_ < rb.bottom_ + n - rb.buff_size_
          + (rb.size_ - n) by omega), if_pos hw]
      show (rb.data_.drop (rb.bottom_ + n - rb.buff_size_)).take (rb.size_ - n) = _
      rw [List.drop_append_eq_append_drop,
        List.drop_eq_nil_of_le (show (rb.data_.drop rb.bottom_).length ≤ n
          by rw [List.length_drop]; omega),
        List.nil_append, List.length_drop, hlen, List.drop_take]
      congr 1
      · omega
      · congr 1
        omega
    case neg =>
      rw [if_neg hcb]
      refine ⟨⟨hlen, show rb.size_ - n ≤ rb.buff_size_ by omega,
        Or.inl (show rb.bottom_ + n < rb.buff_size_ by omega)⟩, ?_, rfl, rfl⟩
      show content _ = _
      unfold content
      rw [if_pos (show rb.buff_size_ < rb.bottom_ + n + (rb.size_ - n) by omega),
        if_pos hw]
      show rb.data_.drop (rb.bottom_ + n)
          ++ rb.data_.take (rb.bottom_ + n + (rb.size_ - n) - rb.buff_size_) = _
      rw [show rb.bottom_ + n + (rb.size_ - n) - rb.buff_size_
          = rb.bottom_ + rb.size_ - rb.buff_size_ by omega]
      rw [List.drop_append_eq_append_drop, List.drop_drop]
      rw [show n - (rb.data_.drop rb.bottom_).length = 0
          by rw [List.length_drop]; omega]
      rw [List.drop_zero]
  case neg =>
    by_cases hcb : rb.buff_size_ ≤ rb.bottom_ + n
    case pos =>
      -- in the unwrapped state this forces draining the whole content
      have hns : n = rb.size_ := by omega
      rw [if_pos hcb]
      refine ⟨⟨hlen, show rb.size_ - n ≤ rb.buff_size_ by omega, ?_⟩,
        ?_, rfl, rfl⟩
      · rcases hbot with hb | ⟨hb0, hc0⟩
        · exact Or.inl (show rb.bottom_ + n - rb.buff_size_ < rb.buff_size_
            by omega)
        · exact Or.inr ⟨show rb.bottom_ + n - rb.buff_size_ = 0 by omega, hc0⟩
      show content _ = _
      unfold content
      rw [if_neg (show ¬ rb.buff_size_ < rb.bottom_ + n - rb.buff_size_
          + (rb.size_ - n) by omega), if_neg hw]
      show (rb.data_.drop (rb.bottom_ + n - rb.buff_size_)).take (rb.size_ - n) = _
      rw [List.drop_take]
      rw [show rb.size_ - n = 0 by omega, List.take_zero, List.take_zero]
    case neg =>
      rw [if_neg hcb]
      refine ⟨⟨hlen, show rb.size_ - n ≤ rb.buff_size_ by omega,
        Or.inl (show rb.bottom_ + n < rb.buff_size_ by omega)⟩, ?_, rfl, rfl⟩
      show content _ = _
      unfold content
      rw [if_neg (show ¬ rb.buff_size_ < rb.bottom_ + n + (rb.size_ - n) by omega),
        if_neg hw]
      show (rb.data_.drop (rb.bottom_ + n)).take (rb.size_ - n) = _
      rw [List.drop_take, List.drop_drop]

/-- The `clear` method preserves the invariant and empties the content. -/
theorem clear_spec (rb : ByteRingBuffer) (h : rb.Inv) :
    (rb.clear).Inv ∧ (rb.clear).content = [] ∧ (rb.clear).size_ = 0 ∧
    (rb.clear).buff_size_ = rb.buff_size_ := by
  obtain ⟨hlen, hsz, hbot⟩ := h
  refine ⟨⟨hlen, Nat.zero_le _, ?_⟩, ?_, rfl, rfl⟩
  · rcases Nat.eq_zero_or_pos rb.buff_size_ with h0 | h1
    · exact Or.inr ⟨rfl, h0⟩
    · exact Or.inl h1
  · simp [clear, content]

/-- Bottom slice length never exceeds the occupancy. -/
theorem bottom_size_le (rb : ByteRingBuffer) (h : rb.Inv) :
    rb.bottom_size ≤ rb.size_ := by
  obtain ⟨hlen, hsz, hbot⟩ := h
  unfold bottom_size
  rcases hbot with hb | ⟨hb0, hc0⟩ <;> split <;> omega

/-- Bottom slice length is zero exactly when the buffer is empty. -/
theorem bottom_size_eq_zero_iff (rb : ByteRingBuffer) (h : rb.Inv) :
    rb.bottom_size = 0 ↔ rb.size_ = 0 := by
  obtain ⟨hlen, hsz, hbot⟩ := h
  unfold bottom_size
  rcases hbot with hb | ⟨hb0, hc0⟩ <;> split <;> omega

/-- The bottom slice is the longest contiguous prefix of the content. -/
theorem bottomSlice_take (rb : ByteRingBuffer) (h : rb.Inv) :
    rb.bottomSlice = rb.content.take rb.bottom_size := by
  obtain ⟨hlen, hsz, hbot⟩ := h
  unfold bottomSlice bottom_size content
  split
  · rw [take_app_le (by rw [List.length_drop]; omega)]
  · rw [List.take_take]
    congr 1
    omega

/-- Reader loop of the FIFO claim: repeatedly fetch the bottom slice and
advance past it until the buffer is empty. -/
def drain (rb : ByteRingBuffer) : List Nat :=
  if _h1 : rb.size_ = 0 then []
  else if _h2 : rb.bottom_size = 0 then []
  else rb.bottomSlice ++ drain (rb.advance rb.bottom_size)
termination_by rb.size_
decreasing_by
  show (rb.advance rb.bottom_size).size_ < rb.size_
  unfold advance
  show rb.size_ - rb.bottom_size < rb.size_
  omega

theorem drain_empty (rb : ByteRingBuffer) (h : rb.size_ = 0) :
    drain rb = [] := by
  rw [drain]
  rw [dif_pos h]

/-- Draining an invariant-satisfying buffer returns exactly its content. -/
theorem drain_content_aux (N : Nat) :
    ∀ rb : ByteRingBuffer, rb.size_ ≤ N → rb.Inv → drain rb = rb.content := by
  induction N with
  | zero =>
    intro rb hle hinv
    have hz : rb.size_ = 0 := by omega
    rw [drain_empty rb hz]
    exact (List.eq_nil_of_length_eq_zero (by rw [content_length rb hinv, hz])).symm
  | succ N ih =>
    intro rb hle hinv
    by_cases hz : rb.size_ = 0
    · rw [drain_empty rb hz]
      exact (List.eq_nil_of_length_eq_zero
        (by rw [content_length rb hinv, hz])).symm
    · have hbs : rb.bottom_size ≠ 0 := by
        intro h0
        exact hz ((bottom_size_eq_zero_iff rb hinv).mp h0)
      rw [drain, dif_neg hz, dif_neg hbs]
      obtain ⟨hadv_inv, hadv_content, hadv_size, _⟩ :=
        advance_spec rb rb.bottom_size hinv (bottom_size_le rb hinv)
      rw [ih (rb.advance rb.bottom_size) (by rw [hadv_size]; omega) hadv_inv,
        hadv_content, bottomSlice_take rb hinv, List.take_append_drop]

theorem drain_content (rb : ByteRingBuffer) (h : rb.Inv) :
    drain rb = rb.content :=
  drain_content_aux rb.size_ rb le_rfl h

/-- States reachable by the public `write` / `advance` / `clear` interface
from a fresh buffer, where `advance` respects its assertion. -/
inductive Reachable : ByteRingBuffer → Prop where
  | init : Reachable ByteRingBuffer.init
  | write (rb : ByteRingBuffer) (src : List Nat) :
      Reachable rb → Reachable (rb.write src)
  | advance (rb : ByteRingBuffer) (n : Nat) :
      Reachable rb → n ≤ rb.size_ → Reachable (rb.advance n)
  | clear (rb : ByteRingBuffer) : Reachable rb → Reachable (rb.clear)

theorem init_inv : (ByteRingBuffer.init).Inv :=
  ⟨rfl, le_rfl, Or.inr ⟨rfl, rfl⟩⟩

/-- Every reachable state satisfies the structural invariant. -/
theorem reachable_inv (rb : ByteRingBuffer) (h : Reachable rb) : rb.Inv := by
  induction h with
  | init => exact init_inv
  | write rb src hr ih => exact (write_spec rb src ih).1
  | advance rb n hr hn ih => exact (advance_spec rb n ih hn).1
  | clear rb hr ih => exact (clear_spec rb ih).1

/-- Every reachable state has a capacity of the reachable form. -/
theorem reachable_capForm (rb : ByteRingBuffer) (h : Reachable rb) :
    capForm rb.buff_size_ := by
  induction h with
  | init => exact Or.inl rfl
  | write rb src hr ih => exact write_capForm rb src ih
  | advance rb n hr hn ih => exact ih
  | clear rb hr ih => exact ih

/-- Folding a sequence of writes appends the concatenation of the blocks. -/
theorem write_fold (Bs : List (List Nat)) :
    ∀ rb : ByteRingBuffer, rb.Inv →
    (Bs.foldl ByteRingBuffer.write rb).Inv ∧
    (Bs.foldl ByteRingBuffer.write rb).content = rb.content ++ Bs.flatten := by
  induction Bs with
  | nil =>
    intro rb h
    exact ⟨h, by simp⟩
  | cons B Bs ih =>
    intro rb h
    obtain ⟨h1, hc1⟩ := write_spec rb B h
    obtain ⟨h2, hc2⟩ := ih (rb.write B) h1
    refine ⟨h2, ?_⟩
    rw [List.foldl_cons] at *
    rw [hc2, hc1, List.flatten_cons, List.append_assoc]

theorem init_content : (ByteRingBuffer.init).content = [] := rfl

end ByteRingBuffer

/-! ## Operation traces over the ring buffer

Used to state the interleaving invariants: a trace is a list of public
operations applied from the fresh buffer, where every `advance n` respects
the assertion `n ≤ size`. -/

inductive Op where
  | wr (src : List Nat)
  | adv (n : Nat)
  | clr
deriving Repr, DecidableEq

/-- Apply one public operation. -/
def applyOp (rb : ByteRingBuffer) : Op → ByteRingBuffer
  | .wr src => rb.write src
  | .adv n => rb.advance n
  | .clr => rb.clear

/-- Run a trace of operations. -/
def execOps (rb : ByteRingBuffer) (l : List Op) : ByteRingBuffer :=
  l.foldl applyOp rb

/-- A trace is valid from a state when every `advance` respects the
assertion `size_ >= n` of `ByteRingBuffer::advance`. -/
def validFrom (rb : ByteRingBuffer) : List Op → Bool
  | [] => true
  | op :: rest =>
    (match op with
      | .adv n => decide (n ≤ rb.size_)
      | _ => true) && validFrom (applyOp rb op) rest

/-- Total number of bytes passed to `write` in a trace. -/
def totalWritten : List Op → Nat
  | [] => 0
  | Op.wr src :: rest => src.length + totalWritten rest
  | _ :: rest => totalWritten rest

/-- Total number of bytes consumed by `advance` in a trace. -/
def totalAdvanced : List Op → Nat
  | [] => 0
  | Op.adv n :: rest => n + totalAdvanced rest
  | _ :: rest => totalAdvanced rest

/-- High-water mark of `size()` over all intermediate states of a trace. -/
def highWater (rb : ByteRingBuffer) : List Op → Nat
  | [] => rb.size_
  | op :: rest => max rb.size_ (highWater (applyOp rb op) rest)

theorem execOps_cons (rb : ByteRingBuffer) (op : Op) (rest : List Op) :
    execOps rb (op :: rest) = execOps (applyOp rb op) rest := rfl

theorem execOps_append (rb : ByteRingBuffer) (t1 t2 : List Op) :
    execOps rb (t1 ++ t2) = execOps (execOps rb t1) t2 := by
  unfold execOps
  rw [List.foldl_append]

/-- Trace validity splits over concatenation. -/
theorem validFrom_append (t1 t2 : List Op) :
    ∀ rb : ByteRingBuffer, validFrom rb (t1 ++ t2) = true →
    validFrom rb t1 = true ∧ validFrom (execOps rb t1) t2 = true := by
  induction t1 with
  | nil =>
    intro rb h
    exact ⟨rfl, h⟩
  | cons op rest ih =>
    intro rb h
    rw [List.cons_append] at h
    unfold validFrom at h
    rw [Bool.and_eq_true] at h
    obtain ⟨hg, ht⟩ := h
    obtain ⟨h1, h2⟩ := ih (applyOp rb op) ht
    refine ⟨?_, ?_⟩
    · unfold validFrom
      rw [Bool.and_eq_true]
      exact ⟨hg, h1⟩
    · rw [execOps_cons]
      exact h2

/-- Master invariant of operation traces: the structural invariant, capacity
form, capacity growth, high-water bound and byte accounting all hold along
any valid trace. -/
theorem execOps_master (l : List Op) :
    ∀ rb : ByteRingBuffer, rb.Inv → validFrom rb l = true →
    (execOps rb l).Inv ∧
    rb.buff_size_ ≤ (execOps rb l).buff_size_ ∧
    (capForm rb.buff_size_ → capForm (execOps rb l).buff_size_) ∧
    highWater rb l ≤ (execOps rb l).buff_size_ ∧
    ((∀ op ∈ l, op ≠ Op.clr) →
      (execOps rb l).size_ + totalAdvanced l = rb.size_ + totalWritten l) := by
  induction l with
  | nil =>
    intro rb h _
    exact ⟨h, le_rfl, fun hc => hc, h.2.1, fun _ => by
      simp [execOps, totalAdvanced, totalWritten]⟩
  | cons op rest ih =>
    intro rb h hv
    unfold validFrom at hv
    rw [Bool.and_eq_true] at hv
    obtain ⟨hg, hrest⟩ := hv
    cases op with
    | wr src =>
      have h1 : (rb.write src).Inv := (ByteRingBuffer.write_spec rb src h).1
      obtain ⟨ih1, ih2, ih3, ih4, ih5⟩ := ih (rb.write src) h1 hrest
      rw [execOps_cons]
      rw [show applyOp rb (Op.wr src) = rb.write src from rfl] at *
      refine ⟨ih1, le_trans (ByteRingBuffer.write_buff_ge rb src) ih2,
        fun hc => ih3 (ByteRingBuffer.write_capForm rb src hc), ?_, ?_⟩
      · show max rb.size_ _ ≤ _
        exact max_le (le_trans h.2.1
          (le_trans (ByteRingBuffer.write_buff_ge rb src) ih2)) ih4
      · intro hnoclr
        have hnr : ∀ o ∈ rest, o ≠ Op.clr := fun o ho =>
          hnoclr o (List.mem_cons_of_mem _ ho)
        have := ih5 hnr
        rw [ByteRingBuffer.write_size] at this
        show _ + totalAdvanced (Op.wr src :: rest)
          = rb.size_ + totalWritten (Op.wr src :: rest)
        unfold totalAdvanced totalWritten
        omega
    | adv n =>
      have hn : n ≤ rb.size_ := of_decide_eq_true hg
      obtain ⟨hainv, _, hasize, habuff⟩ :=
        ByteRingBuffer.advance_spec rb n h hn
      obtain ⟨ih1, ih2, ih3, ih4, ih5⟩ := ih (rb.advance n) hainv hrest
      rw [execOps_cons]
      rw [show applyOp rb (Op.adv n) = rb.advance n from rfl] at *
      refine ⟨ih1, le_trans (le_of_eq habuff.symm) ih2,
        fun hc => ih3 (by rw [habuff]; exact hc), ?_, ?_⟩
      · show max rb.size_ _ ≤ _
        refine max_le (le_trans h.2.1 ?_) ih4
        rw [habuff] at ih2
        exact ih2
      · intro hnoclr
        have hnr : ∀ o ∈ rest, o ≠ Op.clr := fun o ho =>
          hnoclr o (List.mem_cons_of_mem _ ho)
        have := ih5 hnr
        rw [hasize] at this
        show _ + totalAdvanced (Op.adv n :: rest)
          = rb.size_ + totalWritten (Op.adv n :: rest)
        unfold totalAdvanced totalWritten
        omega
    | clr =>
      obtain ⟨hcinv, _, hcsize, hcbuff⟩ := ByteRingBuffer.clear_spec rb h
      obtain ⟨ih1, ih2, ih3, ih4, ih5⟩ := ih rb.clear hcinv hrest
      rw [execOps_cons]
      rw [show applyOp rb Op.clr = rb.clear from rfl] at *
      refine ⟨ih1, le_trans (le_of_eq hcbuff.symm) ih2,
        fun hc => ih3 (by rw [hcbuff]; exact hc), ?_, ?_⟩
      · show max rb.size_ _ ≤ _
        refine max_le (le_trans h.2.1 ?_) ih4
        rw [hcbuff] at ih2
        exact ih2
      · intro hnoclr
        exact absurd rfl (hnoclr Op.clr (List.mem_cons_self _ _))

/-! ## Claim theorems for the ring buffer -/

/-- C1: for every sequence of `write` calls with byte strings B₁ … Bₖ from a
fresh buffer, repeatedly reading the contiguous bottom slice (`bottom()` of
length `bottom_size()`) and then calling `advance(bottom_size())` until
`size()` is 0 yields exactly the concatenation B₁ ∥ … ∥ Bₖ: the ring buffer
is a FIFO byte queue. -/
theorem claim_c1 (Bs : List (List Nat)) :
    ByteRingBuffer.drain (Bs.foldl ByteRingBuffer.write ByteRingBuffer.init)
      = Bs.flatten := by
  obtain ⟨hinv, hcontent⟩ :=
    ByteRingBuffer.write_fold Bs ByteRingBuffer.init ByteRingBuffer.init_inv
  rw [ByteRingBuffer.drain_content _ hinv, hcontent,
    ByteRingBuffer.init_content, List.nil_append]

/-- C3: in every reachable state, `bottom_size()` is either `size()` or
`capacity - bottom`; it equals `size()` whenever `bottom + size ≤ capacity`;
and `bottom_size() = 0` exactly when `size() = 0`. -/
theorem claim_c3 (rb : ByteRingBuffer) (h : ByteRingBuffer.Reachable rb) :
    (rb.bottom_size = rb.size_ ∨ rb.bottom_size = rb.buff_size_ - rb.bottom_) ∧
    (rb.bottom_ + rb.size_ ≤ rb.buff_size_ → rb.bottom_size = rb.size_) ∧
    (rb.bottom_size = 0 ↔ rb.size_ = 0) := by
  have hinv := ByteRingBuffer.reachable_inv rb h
  refine ⟨?_, ?_, ByteRingBuffer.bottom_size_eq_zero_iff rb hinv⟩
  · unfold ByteRingBuffer.bottom_size
    split
    · exact Or.inr rfl
    · exact Or.inl rfl
  · intro hle
    unfold ByteRingBuffer.bottom_size
    rw [if_neg (by omega)]

/-- Witness for C3 at the concrete reachable state obtained by one write. -/
theorem claim_c3_witness :
    ByteRingBuffer.Reachable (ByteRingBuffer.init.write [1, 2, 3]) ∧
    ((ByteRingBuffer.init.write [1, 2, 3]).bottom_size
        = (ByteRingBuffer.init.write [1, 2, 3]).size_ ∨
      (ByteRingBuffer.init.write [1, 2, 3]).bottom_size
        = (ByteRingBuffer.init.write [1, 2, 3]).buff_size_
          - (ByteRingBuffer.init.write [1, 2, 3]).bottom_) ∧
    ((ByteRingBuffer.init.write [1, 2, 3]).bottom_
        + (ByteRingBuffer.init.write [1, 2, 3]).size_
        ≤ (ByteRingBuffer.init.write [1, 2, 3]).buff_size_ →
      (ByteRingBuffer.init.write [1, 2, 3]).bottom_size
        = (ByteRingBuffer.init.write [1, 2, 3]).size_) ∧
    ((ByteRingBuffer.init.write [1, 2, 3]).bottom_size = 0 ↔
      (ByteRingBuffer.init.write [1, 2, 3]).size_ = 0) :=
  ⟨ByteRingBuffer.Reachable.write _ _ ByteRingBuffer.Reachable.init,
    claim_c3 _ (ByteRingBuffer.Reachable.write _ _ ByteRingBuffer.Reachable.init)⟩

/-- C8: along every valid interleaving of `write` and `advance` (and `clear`)
from a fresh buffer, `size()` equals total bytes written minus total bytes
advanced (over traces without `clear`), the capacity is 0 or a power-of-two
multiple of 1024, the capacity dominates the high-water mark of `size()`,
and the capacity is monotonically non-decreasing across all operations. -/
theorem claim_c8 (l : List Op) (hv : validFrom ByteRingBuffer.init l = true) :
    ((∀ op ∈ l, op ≠ Op.clr) →
      (execOps ByteRingBuffer.init l).size_ + totalAdvanced l = totalWritten l) ∧
    ((execOps ByteRingBuffer.init l).buff_size_ = 0 ∨
      ∃ j, (execOps ByteRingBuffer.init l).buff_size_ = 1024 * 2 ^ j) ∧
    highWater ByteRingBuffer.init l ≤ (execOps ByteRingBuffer.init l).buff_size_ ∧
    (∀ t1 t2 : List Op, l = t1 ++ t2 →
      (execOps ByteRingBuffer.init t1).buff_size_
        ≤ (execOps ByteRingBuffer.init l).buff_size_) := by
  obtain ⟨_, _, m3, m4, m5⟩ :=
    execOps_master l ByteRingBuffer.init ByteRingBuffer.init_inv hv
  refine ⟨fun h => by
    have := m5 h
    rw [show ByteRingBuffer.init.size_ = 0 from rfl, Nat.zero_add] at this
    exact this, m3 (Or.inl rfl), m4, ?_⟩
  intro t1 t2 ht
  subst ht
  obtain ⟨v1, v2⟩ := validFrom_append t1 t2 ByteRingBuffer.init hv
  obtain ⟨i1, _, _, _, _⟩ :=
    execOps_master t1 ByteRingBuffer.init ByteRingBuffer.init_inv v1
  obtain ⟨_, b2, _, _, _⟩ :=
    execOps_master t2 (execOps ByteRingBuffer.init t1) i1 v2
  rw [execOps_append]
  exact b2

/-- Witness for C8 on the concrete valid trace `write [1,2,3]; advance 1`. -/
theorem claim_c8_witness :
    validFrom ByteRingBuffer.init [Op.wr [1, 2, 3], Op.adv 1] = true ∧
    ((execOps ByteRingBuffer.init [Op.wr [1, 2, 3], Op.adv 1]).buff_size_ = 0 ∨
      ∃ j, (execOps ByteRingBuffer.init [Op.wr [1, 2, 3], Op.adv 1]).buff_size_
        = 1024 * 2 ^ j) :=
  ⟨by decide, (claim_c8 [Op.wr [1, 2, 3], Op.adv 1] (by decide)).2.1⟩

/-- Capacity after a growing `growState` equals the loop result. -/
theorem growState_buff_eq (rb : ByteRingBuffer) (len : Nat)
    (h : rb.buff_size_ < rb.size_ + len) :
    (ByteRingBuffer.growState rb len).buff_size_
      = growLoop rb.buff_size_ (rb.size_ + len) := by
  unfold ByteRingBuffer.growState
  rw [if_pos h]
  split <;> rfl

/-- Bottom offset after a growing `growState` from a wrapped state. -/
theorem growState_bottom_eq (rb : ByteRingBuffer) (len : Nat)
    (h : rb.buff_size_ < rb.size_ + len)
    (hw : rb.buff_size_ < rb.bottom_ + rb.size_) :
    (ByteRingBuffer.growState rb len).bottom_
      = growLoop rb.buff_size_ (rb.size_ + len)
        - (rb.buff_size_ - rb.bottom_) := by
  unfold ByteRingBuffer.growState
  rw [if_pos h, if_pos hw]

/-- Placement never moves the bottom offset. -/
theorem placeBytes_bottom (rb1 : ByteRingBuffer) (src : List Nat) :
    (ByteRingBuffer.placeBytes rb1 src).bottom_ = rb1.bottom_ := by
  unfold ByteRingBuffer.placeBytes
  split
  · rfl
  · split <;> rfl

/-- Capacity reached by a growing `write`. -/
theorem write_buff_eq (rb : ByteRingBuffer) (src : List Nat)
    (hlen : 0 < src.length) (hgrow : rb.buff_size_ < rb.size_ + src.length) :
    (rb.write src).buff_size_
      = growLoop rb.buff_size_ (rb.size_ + src.length) := by
  unfold ByteRingBuffer.write
  rw [if_neg (by omega), ByteRingBuffer.placeBytes_buff, growState_buff_eq rb _ hgrow]

/-- Bottom offset after a growing `write` from a wrapped state. -/
theorem write_bottom_eq (rb : ByteRingBuffer) (src : List Nat)
    (hlen : 0 < src.length) (hgrow : rb.buff_size_ < rb.size_ + src.length)
    (hw : rb.buff_size_ < rb.bottom_ + rb.size_) :
    (rb.write src).bottom_
      = growLoop rb.buff_size_ (rb.size_ + src.length)
        - (rb.buff_size_ - rb.bottom_) := by
  unfold ByteRingBuffer.write
  rw [if_neg (by omega), placeBytes_bottom, growState_bottom_eq rb _ hgrow hw]

/-- C2 as stated is false on the fresh buffer: a first write of 1025 bytes
sets the capacity to 2048, which is not of the form
`max 1024 (cap * 2 ^ k) = max 1024 (0 * 2 ^ k) = 1024` for any `k`, so no
value of the claimed form reaches `size + len` at all. -/
theorem claim_c2_counterexample :
    (ByteRingBuffer.init.write (List.replicate 1025 0)).buff_size_ = 2048 ∧
    ∀ k : Nat,
      max 1024 (ByteRingBuffer.init.buff_size_ * 2 ^ k) ≠ 2048 := by
  constructor
  · decide
  · intro k
    show max 1024 (0 * 2 ^ k) ≠ 2048
    simp

/-- C2 (amended): on reachable capacities (`cap = 0` or a power-of-two
multiple of 1024), a growing write of `len > 0` bytes with
`size + len > cap` sets the new capacity to the smallest value of the form
`max 1024 cap * 2 ^ k` that is at least `size + len`; when the prior content
wrapped, the tail of length `tail_len = cap - bottom` is relocated to occupy
`[cap' - tail_len, cap')` with `bottom = cap' - tail_len`; and the concrete
run `write(768); advance(768); write(512); write(1024)` on a fresh buffer
ends with `size = 1536`, `bottom_size() = 256`, `capacity = 2048`. -/
theorem claim_c2_amended (rb : ByteRingBuffer) (src : List Nat)
    (hInv : rb.Inv) (hcap : capForm rb.buff_size_) (hlen : 0 < src.length)
    (hgrow : rb.buff_size_ < rb.size_ + src.length) :
    ((∃ k, (rb.write src).buff_size_ = max 1024 rb.buff_size_ * 2 ^ k) ∧
      rb.size_ + src.length ≤ (rb.write src).buff_size_ ∧
      (∀ j, rb.size_ + src.length ≤ max 1024 rb.buff_size_ * 2 ^ j →
        (rb.write src).buff_size_ ≤ max 1024 rb.buff_size_ * 2 ^ j)) ∧
    (rb.buff_size_ < rb.bottom_ + rb.size_ →
      (rb.write src).bottom_
          = (rb.write src).buff_size_ - (rb.buff_size_ - rb.bottom_) ∧
      ((rb.write src).data_.drop (rb.write src).bottom_).take
          (rb.buff_size_ - rb.bottom_)
        = (rb.data_.drop rb.bottom_).take (rb.buff_size_ - rb.bottom_)) ∧
    ((((ByteRingBuffer.init.write (List.replicate 768 1)).advance 768).write
        (List.replicate 512 2)).write (List.replicate 1024 3)).size_ = 1536 ∧
    ((((ByteRingBuffer.init.write (List.replicate 768 1)).advance 768).write
        (List.replicate 512 2)).write (List.replicate 1024 3)).bottom_size = 256 ∧
    ((((ByteRingBuffer.init.write (List.replicate 768 1)).advance 768).write
        (List.replicate 512 2)).write (List.replicate 1024 3)).buff_size_ = 2048 := by
  have hbuff := write_buff_eq rb src hlen hgrow
  obtain ⟨hform, hge, hmin⟩ := growLoop_spec rb.buff_size_ (rb.size_ + src.length)
    hcap hgrow
  refine ⟨⟨by rw [hbuff]; exact hform, by rw [hbuff]; exact hge,
    fun j hj => by rw [hbuff]; exact hmin j hj⟩, ?_, by decide, by decide, by decide⟩
  intro hw
  have hlen0 := hInv.1
  have hsz0 := hInv.2.1
  have hbot0 := hInv.2.2
  have hb : rb.bottom_ < rb.buff_size_ := by
    rcases hbot0 with hb | ⟨h1, h2⟩
    · exact hb
    · omega
  have htls : rb.buff_size_ - rb.bottom_ < rb.size_ := by omega
  have hbot := write_bottom_eq rb src hlen hgrow hw
  have hcapge : rb.buff_size_ ≤ (rb.write src).buff_size_ :=
    ByteRingBuffer.write_buff_ge rb src
  refine ⟨by rw [hbot, hbuff], ?_⟩
  -- the relocated tail read back from the new state equals the old tail
  obtain ⟨hWinv, hWc⟩ := ByteRingBuffer.write_spec rb src hInv
  have hWlen : (rb.write src).data_.length = (rb.write src).buff_size_ := hWinv.1
  have hWsize : (rb.write src).size_ = rb.size_ + src.length :=
    ByteRingBuffer.write_size rb src
  have htl_le : rb.buff_size_ - rb.bottom_ ≤ (rb.write src).buff_size_ := by
    omega
  have hwrapped : (rb.write src).buff_size_
      < (rb.write src).bottom_ + (rb.write src).size_ := by
    rw [hbot, hbuff, hWsize]
    have := growLoop_ge_need rb.buff_size_ (rb.size_ + src.length)
    have := growLoop_ge_start rb.buff_size_ (rb.size_ + src.length)
    omega
  have hdroplen : ((rb.write src).data_.drop (rb.write src).bottom_).length
      = rb.buff_size_ - rb.bottom_ := by
    rw [List.length_drop, hWlen, hbot]
    omega
  have hslice : (rb.write src).data_.drop (rb.write src).bottom_
      = ((rb.write src).content).take (rb.buff_size_ - rb.bottom_) := by
    unfold ByteRingBuffer.content
    rw [if_pos hwrapped,
      ByteRingBuffer.take_app_le (le_of_eq hdroplen.symm),
      List.take_of_length_le (le_of_eq hdroplen)]
  have hclen : rb.content.length = rb.size_ :=
    ByteRingBuffer.content_length rb hInv
  have hcontent_tl : ((rb.write src).content).take (rb.buff_size_ - rb.bottom_)
      = rb.content.take (rb.buff_size_ - rb.bottom_) := by
    rw [hWc, ByteRingBuffer.take_app_le (by omega)]
  have hcontent_old : rb.content.take (rb.buff_size_ - rb.bottom_)
      = (rb.data_.drop rb.bottom_).take (rb.buff_size_ - rb.bottom_) := by
    unfold ByteRingBuffer.content
    rw [if_pos hw, ByteRingBuffer.take_app_le (by rw [List.length_drop]; omega)]
  rw [hslice, List.take_take, min_self, hcontent_tl, hcontent_old]

/-- Witness for the amended C2 on a first growing write of one byte. -/
theorem claim_c2_witness :
    ByteRingBuffer.init.Inv ∧ capForm ByteRingBuffer.init.buff_size_ ∧
    0 < [(5 : Nat)].length ∧
    ByteRingBuffer.init.buff_size_
      < ByteRingBuffer.init.size_ + [(5 : Nat)].length ∧
    (∃ k, (ByteRingBuffer.init.write [5]).buff_size_
      = max 1024 ByteRingBuffer.init.buff_size_ * 2 ^ k) :=
  ⟨ByteRingBuffer.init_inv, Or.inl rfl, by decide, by decide,
    (claim_c2_amended ByteRingBuffer.init [5] ByteRingBuffer.init_inv
      (Or.inl rfl) (by decide) (by decide)).1.1⟩

/-- C9: a zero-length write is the identity on the whole state, so a fresh
buffer keeps capacity 0 under it, and the first allocation, to capacity
1024, happens on the first write with `len > 0` (of at most 1024 bytes). -/
theorem claim_c9 :
    (∀ (rb : ByteRingBuffer) (src : List Nat), src.length = 0 →
      rb.write src = rb) ∧
    ByteRingBuffer.init.buff_size_ = 0 ∧
    (∀ src : List Nat, 0 < src.length → src.length ≤ 1024 →
      (ByteRingBuffer.init.write src).buff_size_ = 1024) := by
  refine ⟨?_, rfl, ?_⟩
  · intro rb src h
    unfold ByteRingBuffer.write
    rw [if_pos h]
  · intro src h1 h2
    rw [write_buff_eq ByteRingBuffer.init src h1
      (show ByteRingBuffer.init.buff_size_
        < ByteRingBuffer.init.size_ + src.length from by
          show (0 : Nat) < 0 + src.length
          omega)]
    show growLoop 0 (0 + src.length) = 1024
    rw [Nat.zero_add, growLoop_step 0 src.length (by omega)]
    show growLoop 1024 src.length = 1024
    exact growLoop_eq_self 1024 src.length h2

/-- Witness for C9: identity of the empty write, and first allocation. -/
theorem claim_c9_witness :
    ([] : List Nat).length = 0 ∧
    ByteRingBuffer.init.write [] = ByteRingBuffer.init ∧
    0 < [(7 : Nat)].length ∧ [(7 : Nat)].length ≤ 1024 ∧
    (ByteRingBuffer.init.write [7]).buff_size_ = 1024 :=
  ⟨rfl, claim_c9.1 ByteRingBuffer.init [] rfl, by decide, by decide,
    claim_c9.2.2 [7] (by decide) (by decide)⟩

/-! ## ExecPipe: exit status reporting

Translated from `tlx/exec_pipe.cpp`.  A `Stage` keeps the fields the status
surface reads: the function-stage flag (`func != nullptr`) and the raw wait
status `retstatus` (initialized to 0 by `Stage::Stage`, overwritten by the
reap loop).  The `WIF*`/`WEXITSTATUS`/`WTERMSIG` macros are modelled from
the glibc wait-status encoding: the low 7 bits are the terminating signal
(0 for a normal exit, with bit 7 as the core-dump flag), and bits 8-15 are
the exit code. -/

/-- Macro `WIFEXITED`: the low 7 bits of the status are zero. -/
def wifexited (s : Nat) : Bool := s % 128 == 0

/-- Macro `WEXITSTATUS`: bits 8-15 of the status. -/
def wexitstatus (s : Nat) : Nat := s / 256 % 256

/-- Macro `WIFSIGNALED`: the low 7 bits are a real signal number (not 0,
which means exited, and not 0x7f, which means stopped). -/
def wifsignaled (s : Nat) : Bool := decide (0 < s % 128) && decide (s % 128 < 127)

/-- Macro `WTERMSIG`: the low 7 bits of the status. -/
def wtermsig (s : Nat) : Nat := s % 128

/-- Raw wait status of a child that exited normally with code `c < 256`. -/
def exitStatus (c : Nat) : Nat := 256 * c

/-- Raw wait status of a child killed by signal `s` (`1 ≤ s ≤ 126`), with
the optional core-dump flag in bit 7. -/
def signalStatus (s : Nat) (core : Bool) : Nat :=
  s + if core then 128 else 0

/-- A raw status produced by `wait` for a terminated child. -/
def WfStatus (r : Nat) : Prop :=
  (∃ c, c < 256 ∧ r = exitStatus c) ∨
  (∃ s core, 1 ≤ s ∧ s ≤ 126 ∧ r = signalStatus s core)

/-- Status-surface fields of `ExecPipeImpl::Stage` (exec_pipe.cpp:426-480). -/
structure Stage where
  func : Bool
  retstatus : Nat
deriving Repr, DecidableEq

/-- Constructor `Stage::Stage` (exec_pipe.cpp:474-479): `func = nullptr`,
`retstatus = 0`. -/
def Stage.construct : Stage := { func := false, retstatus := 0 }

/-- Per-stage decoding used by `get_return_code` (exec_pipe.cpp:865-873). -/
def stageCode (st : Stage) : Int :=
  if wifexited st.retstatus then (wexitstatus st.retstatus : Int) else -1

/-- Per-stage decoding used by `get_return_signal` (exec_pipe.cpp:879-887). -/
def stageSignal (st : Stage) : Int :=
  if wifsignaled st.retstatus then (wtermsig st.retstatus : Int) else -1

/-- Method `get_return_code(stage_id)` (exec_pipe.cpp:865-873). -/
def get_return_code (stages : List Stage) (i : Nat) : Int :=
  stageCode (stages.getD i Stage.construct)

/-- Method `get_return_signal(stage_id)` (exec_pipe.cpp:879-887). -/
def get_return_signal (stages : List Stage) (i : Nat) : Int :=
  stageSignal (stages.getD i Stage.construct)

/-- Method `all_return_codes_zero()` (exec_pipe.cpp:892-902): skip function
stages, compare each exec stage's return code against 0. -/
def all_return_codes_zero (stages : List Stage) : Bool :=
  stages.all fun st => st.func || (stageCode st == 0)

/-- C4: after reaping, an exec stage whose program exited normally with code
`c` reports `get_return_code = c` and `get_return_signal = -1`; one killed
by signal `s` reports `get_return_signal = s` and `get_return_code = -1`;
and `all_return_codes_zero()` is true exactly when every exec stage
(function stages ignored) terminated normally with code 0. -/
theorem claim_c4 :
    (∀ (stages : List Stage) (i c : Nat), i < stages.length → c < 256 →
      (stages.getD i Stage.construct).retstatus = exitStatus c →
      get_return_code stages i = (c : Int) ∧ get_return_signal stages i = -1) ∧
    (∀ (stages : List Stage) (i s : Nat) (core : Bool), i < stages.length →
      1 ≤ s → s ≤ 126 →
      (stages.getD i Stage.construct).retstatus = signalStatus s core →
      get_return_signal stages i = (s : Int) ∧ get_return_code stages i = -1) ∧
    (∀ stages : List Stage,
      (∀ st ∈ stages, st.func = false → WfStatus st.retstatus) →
      (all_return_codes_zero stages = true ↔
        ∀ st ∈ stages, st.func = false → st.retstatus = exitStatus 0)) := by
  have hexit : ∀ c : Nat, c < 256 →
      stageCode ⟨false, exitStatus c⟩ = (c : Int) ∧
      ∀ f : Bool, stageCode ⟨f, exitStatus c⟩ = (c : Int) := by
    intro c hc
    have h1 : exitStatus c % 128 = 0 := by unfold exitStatus; omega
    have h2 : exitStatus c / 256 % 256 = c := by unfold exitStatus; omega
    constructor
    · simp [stageCode, wifexited, wexitstatus, h1, h2]
    · intro f
      simp [stageCode, wifexited, wexitstatus, h1, h2]
  refine ⟨?_, ?_, ?_⟩
  · intro stages i c hi hc hret
    have h1 : exitStatus c % 128 = 0 := by unfold exitStatus; omega
    have h2 : exitStatus c / 256 % 256 = c := by unfold exitStatus; omega
    unfold get_return_code get_return_signal stageCode stageSignal
    rw [hret]
    constructor
    · simp [wifexited, wexitstatus, h1, h2]
    · simp [wifsignaled, h1]
  · intro stages i s core hi hs1 hs2 hret
    have h1 : signalStatus s core % 128 = s := by
      unfold signalStatus
      split <;> omega
    unfold get_return_code get_return_signal stageCode stageSignal
    rw [hret]
    constructor
    · rw [if_pos (by simp [wifsignaled, h1]; omega)]
      unfold wtermsig
      rw [h1]
    · rw [if_neg (by simp [wifexited, h1]; omega)]
  · intro stages hwf
    unfold all_return_codes_zero
    rw [List.all_eq_true]
    constructor
    · intro h st hm hf
      have := h st hm
      rw [hf, Bool.false_or, beq_iff_eq] at this
      rcases hwf st hm hf with ⟨c, hc, hr⟩ | ⟨s, core, hs1, hs2, hr⟩
      · have h1 : exitStatus c % 128 = 0 := by unfold exitStatus; omega
        have h2 : exitStatus c / 256 % 256 = c := by unfold exitStatus; omega
        rw [show stageCode st = (c : Int) by
          simp [stageCode, wifexited, wexitstatus, hr, h1, h2]] at this
        rw [hr]
        unfold exitStatus
        have : c = 0 := by omega
        omega
      · have h1 : signalStatus s core % 128 = s := by
          unfold signalStatus
          split <;> omega
        rw [show stageCode st = -1 by
          rw [stageCode, if_neg (by simp [wifexited, hr, h1]; omega)]] at this
        omega
    · intro h st hm
      by_cases hf : st.func = true
      · rw [hf, Bool.true_or]
      · have hst := h st hm (by simpa using hf)
        have hc : stageCode st = 0 := by
          unfold stageCode
          rw [hst]
          simp [wifexited, wexitstatus, exitStatus]
        rw [hc]
        simp

/-- Witness for C4 on a concrete stage table: exit 3, a function stage, a
signal 9 kill, and an exit 0. -/
theorem claim_c4_witness :
    (0 < [Stage.mk false (exitStatus 3), Stage.mk true 0,
        Stage.mk false (signalStatus 9 false)].length ∧ 3 < 256 ∧
      get_return_code [Stage.mk false (exitStatus 3), Stage.mk true 0,
        Stage.mk false (signalStatus 9 false)] 0 = 3) ∧
    (get_return_signal [Stage.mk false (exitStatus 3), Stage.mk true 0,
        Stage.mk false (signalStatus 9 false)] 2 = 9) ∧
    (all_return_codes_zero [Stage.mk false (exitStatus 0), Stage.mk true 5]
        = true ↔
      ∀ st ∈ [Stage.mk false (exitStatus 0), Stage.mk true 5],
        st.func = false → st.retstatus = exitStatus 0) := by
  refine ⟨⟨by decide, by decide, ?_⟩, ?_, ?_⟩
  · exact (claim_c4.1 [Stage.mk false (exitStatus 3), Stage.mk true 0,
      Stage.mk false (signalStatus 9 false)] 0 3 (by decide) (by decide) rfl).1
  · exact (claim_c4.2.1 [Stage.mk false (exitStatus 3), Stage.mk true 0,
      Stage.mk false (signalStatus 9 false)] 2 9 false (by decide) (by decide)
      (by decide) rfl).1
  · exact claim_c4.2.2 [Stage.mk false (exitStatus 0), Stage.mk true 5]
      (by intro st hm hf
          fin_cases hm
          · exact Or.inl ⟨0, by omega, rfl⟩
          · exact absurd hf (by decide))

/-- C10: every stage is constructed with `retstatus = 0`, which decodes as a
normal exit with code 0, so before any child is reaped `get_return_code`
returns 0, `get_return_signal` returns -1, and `all_return_codes_zero()` is
true even though no child ever ran. -/
theorem claim_c10 :
    Stage.construct.retstatus = 0 ∧
    stageCode Stage.construct = 0 ∧ stageSignal Stage.construct = -1 ∧
    (∀ stages : List Stage, (∀ st ∈ stages, st.retstatus = 0) →
      (∀ i, i < stages.length →
        get_return_code stages i = 0 ∧ get_return_signal stages i = -1) ∧
      all_return_codes_zero stages = true) := by
  refine ⟨rfl, by decide, by decide, ?_⟩
  intro stages h
  have hst : ∀ st ∈ stages, stageCode st = 0 ∧ stageSignal st = -1 := by
    intro st hm
    have h0 := h st hm
    constructor
    · rw [show st = ⟨st.func, 0⟩ by cases st with | mk f r => simp_all]
      simp [stageCode, wifexited, wexitstatus]
    · rw [show st = ⟨st.func, 0⟩ by cases st with | mk f r => simp_all]
      simp [stageSignal, wifsignaled]
  constructor
  · intro i hi
    have hmem : stages.getD i Stage.construct ∈ stages := by
      rw [List.getD_eq_getElem stages Stage.construct hi]
      exact List.getElem_mem hi
    obtain ⟨h1, h2⟩ := hst _ hmem
    exact ⟨h1, h2⟩
  · rw [all_return_codes_zero, List.all_eq_true]
    intro st hm
    rw [(hst st hm).1]
    simp

/-- Witness for C10 on a two-stage freshly configured pipeline. -/
theorem claim_c10_witness :
    (∀ st ∈ [Stage.construct, { Stage.construct with func := true }],
      st.retstatus = 0) ∧
    all_return_codes_zero [Stage.construct,
      { Stage.construct with func := true }] = true :=
  ⟨by decide,
    (claim_c10.2.2.2 [Stage.construct, { Stage.construct with func := true }]
      (by decide)).2⟩

/-! ## ExecPipe: sizing of the env pointer array in exec_stage

`ExecPipeImpl::exec_stage` (exec_pipe.cpp:957-971) declares
`const char* cenv[args.size() + 1]` and then writes `envp->size()` pointers
plus one null terminator into it. -/

/-- Number of elements of the local array `cenv` (exec_pipe.cpp:961). -/
def cenvSize (argsLen : Nat) : Nat := argsLen + 1

/-- Indices written into `cenv`: the loop indices `0 .. envp->size() - 1`
and the null terminator at `envp->size()` (exec_pipe.cpp:963-967). -/
def cenvWriteIndices (envLen : Nat) : List Nat :=
  List.range envLen ++ [envLen]

/-- C6: the env loop writes `envp->size() + 1` entries into `cenv`, which
has `args.size() + 1` elements; all writes are in bounds exactly when
`envp->size() ≤ args.size()`. -/
theorem claim_c6 (envLen argsLen : Nat) :
    (cenvWriteIndices envLen).length = envLen + 1 ∧
    ((∀ i ∈ cenvWriteIndices envLen, i < cenvSize argsLen) ↔
      envLen ≤ argsLen) := by
  constructor
  · simp [cenvWriteIndices]
  · constructor
    · intro h
      have := h envLen (by simp [cenvWriteIndices])
      unfold cenvSize at this
      omega
    · intro h i hi
      unfold cenvSize
      unfold cenvWriteIndices at hi
      rcases List.mem_append.mp hi with h1 | h2
      · have := List.mem_range.mp h1
        omega
      · simp at h2
        omega

/-- Witness for C6 at `envp->size() = 2`, `args.size() = 3`. -/
theorem claim_c6_witness :
    (cenvWriteIndices 2).length = 2 + 1 ∧
    ((∀ i ∈ cenvWriteIndices 2, i < cenvSize 3) ↔ 2 ≤ 3) :=
  claim_c6 2 3

/-! ## ExecPipe: descriptor planning of run()

Translated from `ExecPipeImpl::run` phase 1 (exec_pipe.cpp:987-1094).
`pipe()` is modelled as allocating two fresh descriptor numbers from a
counter (`pipefd[0] = c` is the read end, `pipefd[1] = c + 1` the write
end); the returned event list records the pipe / fcntl / open calls the
code makes, in program order. -/

/-- Planning fields of a stage: the function-stage flag and the two
descriptors assigned during phase 1 (initialized to -1 by `Stage::Stage`). -/
structure PStage where
  func : Bool
  stdin_fd : Int
  stdout_fd : Int
deriving Repr, DecidableEq

/-- A freshly added stage. -/
def PStage.mkStage (f : Bool) : PStage :=
  { func := f, stdin_fd := -1, stdout_fd := -1 }

/-- One pipe created between an adjacent pair of stages, with the
non-blocking flag of each end as set by the two `fcntl` calls. -/
structure StagePipe where
  readFd : Int
  writeFd : Int
  readNonblock : Bool
  writeNonblock : Bool
deriving Repr, DecidableEq

/-- Default stage used by out-of-range `getD` reads in the statements. -/
def dStage : PStage := { func := false, stdin_fd := -1, stdout_fd := -1 }

/-- Default pipe record used by out-of-range `getD` reads. -/
def dPipe : StagePipe :=
  { readFd := -1, writeFd := -1, readNonblock := false, writeNonblock := false }

/-- Loop body of the stage-pipes phase (exec_pipe.cpp:1033-1054) over the
current stage `s` and the remaining stages: for each adjacent pair create
one pipe, assign `stages[i].stdout_fd = pipefd[1]` and
`stages[i+1].stdin_fd = pipefd[0]`, set the write end non-blocking iff
stage `i` is a function stage and the read end non-blocking iff stage
`i + 1` is a function stage. -/
def stagePipesGo : PStage → List PStage → Nat → List PStage × List StagePipe
  | s, [], _ => ([s], [])
  | s, t :: rest, c =>
    ({ s with stdout_fd := (c : Int) + 1 } ::
        (stagePipesGo { t with stdin_fd := (c : Int) } rest (c + 2)).1,
      { readFd := (c : Int), writeFd := (c : Int) + 1,
        readNonblock := t.func, writeNonblock := s.func } ::
        (stagePipesGo { t with stdin_fd := (c : Int) } rest (c + 2)).2)

/-- Stage-pipes phase of `run()` over the whole stage list. -/
def stagePipes : List PStage → Nat → List PStage × List StagePipe
  | [], _ => ([], [])
  | s :: rest, c => stagePipesGo s rest c

theorem stagePipesGo_len1 (rest : List PStage) :
    ∀ (s : PStage) (c : Nat),
    (stagePipesGo s rest c).1.length = rest.length + 1 := by
  induction rest with
  | nil => intro s c; rfl
  | cons t rest ih =>
    intro s c
    unfold stagePipesGo
    simp only [List.length_cons]
    rw [ih]

theorem stagePipesGo_len2 (rest : List PStage) :
    ∀ (s : PStage) (c : Nat),
    (stagePipesGo s rest c).2.length = rest.length := by
  induction rest with
  | nil => intro s c; rfl
  | cons t rest ih =>
    intro s c
    unfold stagePipesGo
    simp only [List.length_cons]
    rw [ih]

theorem stagePipesGo_head_stdin (rest : List PStage) (s : PStage) (c : Nat) :
    ((stagePipesGo s rest c).1.getD 0 dStage).stdin_fd = s.stdin_fd := by
  cases rest with
  | nil => rfl
  | cons t rest => rfl

/-- Index-wise characterization of the stage-pipes loop. -/
theorem stagePipesGo_spec (rest : List PStage) :
    ∀ (s : PStage) (c i : Nat), i < rest.length →
    ((stagePipesGo s rest c).2.getD i dPipe).readFd = (c : Int) + 2 * i ∧
    ((stagePipesGo s rest c).2.getD i dPipe).writeFd = (c : Int) + 2 * i + 1 ∧
    ((stagePipesGo s rest c).2.getD i dPipe).writeNonblock
      = ((s :: rest).getD i dStage).func ∧
    ((stagePipesGo s rest c).2.getD i dPipe).readNonblock
      = (rest.getD i dStage).func ∧
    ((stagePipesGo s rest c).1.getD i dStage).stdout_fd = (c : Int) + 2 * i + 1 ∧
    ((stagePipesGo s rest c).1.getD (i + 1) dStage).stdin_fd
      = (c : Int) + 2 * i := by
  induction rest with
  | nil =>
    intro s c i hi
    exact absurd hi (by simp)
  | cons t rest ih =>
    intro s c i hi
    cases i with
    | zero =>
      refine ⟨by simp [stagePipesGo], by simp [stagePipesGo],
        by simp [stagePipesGo], by simp [stagePipesGo],
        by simp [stagePipesGo], ?_⟩
      show ((stagePipesGo { t with stdin_fd := (c : Int) } rest (c + 2)).1.getD
        0 dStage).stdin_fd = (c : Int) + 2 * 0
      rw [stagePipesGo_head_stdin]
      simp
    | succ j =>
      have hj : j < rest.length := by
        simp at hi
        omega
      obtain ⟨i1, i2, i3, i4, i5, i6⟩ :=
        ih { t with stdin_fd := (c : Int) } (c + 2) j hj
      refine ⟨?_, ?_, ?_, ?_, ?_, ?_⟩
      · show ((stagePipesGo { t with stdin_fd := (c : Int) } rest (c + 2)).2.getD
          j dPipe).readFd = _
        rw [i1]
        push_cast
        ring
      · show ((stagePipesGo { t with stdin_fd := (c : Int) } rest (c + 2)).2.getD
          j dPipe).writeFd = _
        rw [i2]
        push_cast
        ring
      · show ((stagePipesGo { t with stdin_fd := (c : Int) } rest (c + 2)).2.getD
          j dPipe).writeNonblock = _
        rw [i3]
        cases j <;> rfl
      · show ((stagePipesGo { t with stdin_fd := (c : Int) } rest (c + 2)).2.getD
          j dPipe).readNonblock = _
        rw [i4]
        rfl
      · show ((stagePipesGo { t with stdin_fd := (c : Int) } rest (c + 2)).1.getD
          j dStage).stdout_fd = _
        rw [i5]
        push_cast
        ring
      · show ((stagePipesGo { t with stdin_fd := (c : Int) } rest (c + 2)).1.getD
          (j + 1) dStage).stdin_fd = _
        rw [i6]
        push_cast
        ring

/-- C5 as stated is false: for the two-stage pipeline whose first stage is a
function stage and whose second is an exec stage, one side of the pair is a
function stage, yet only the write end of the connecting pipe is set
non-blocking; the read end (handed to the exec child) stays blocking. -/
theorem claim_c5_counterexample :
    (PStage.mkStage true).func = true ∧
    ((stagePipes [PStage.mkStage true, PStage.mkStage false] 3).2.getD 0
      dPipe).writeNonblock = true ∧
    ((stagePipes [PStage.mkStage true, PStage.mkStage false] 3).2.getD 0
      dPipe).readNonblock = false := by
  decide

/-- C5 (amended): for every adjacent pair of stages exactly one pipe is
created, its write end becomes stage `i`'s `stdout_fd` and its read end
stage `i + 1`'s `stdin_fd`; the write end is set non-blocking iff stage `i`
is a function stage, and the read end is set non-blocking iff stage `i + 1`
is a function stage. -/
theorem claim_c5_amended (ss : List PStage) (c i : Nat)
    (h : i + 1 < ss.length) :
    (stagePipes ss c).2.length = ss.length - 1 ∧
    (stagePipes ss c).1.length = ss.length ∧
    ((stagePipes ss c).2.getD i dPipe).writeFd
      = ((stagePipes ss c).1.getD i dStage).stdout_fd ∧
    ((stagePipes ss c).2.getD i dPipe).readFd
      = ((stagePipes ss c).1.getD (i + 1) dStage).stdin_fd ∧
    ((stagePipes ss c).2.getD i dPipe).writeNonblock
      = (ss.getD i dStage).func ∧
    ((stagePipes ss c).2.getD i dPipe).readNonblock
      = (ss.getD (i + 1) dStage).func := by
  cases ss with
  | nil => exact absurd h (by simp)
  | cons s rest =>
    have hi : i < rest.length := by
      simp at h
      omega
    obtain ⟨i1, i2, i3, i4, i5, i6⟩ := stagePipesGo_spec rest s c i hi
    show (stagePipesGo s rest c).2.length = _ ∧
      (stagePipesGo s rest c).1.length = _ ∧ _
    rw [stagePipesGo_len1, stagePipesGo_len2]
    refine ⟨by simp, rfl, ?_, ?_, i3, i4⟩
    · show ((stagePipesGo s rest c).2.getD i dPipe).writeFd
        = ((stagePipesGo s rest c).1.getD i dStage).stdout_fd
      rw [i2, i5]
    · show ((stagePipesGo s rest c).2.getD i dPipe).readFd
        = ((stagePipesGo s rest c).1.getD (i + 1) dStage).stdin_fd
      rw [i1, i6]

/-- Witness for the amended C5 on a concrete exec-then-function pipeline. -/
theorem claim_c5_witness :
    0 + 1 < [PStage.mkStage false, PStage.mkStage true].length ∧
    (stagePipes [PStage.mkStage false, PStage.mkStage true] 0).2.length
      = [PStage.mkStage false, PStage.mkStage true].length - 1 :=
  ⟨by decide,
    (claim_c5_amended [PStage.mkStage false, PStage.mkStage true] 0 0
      (by decide)).1⟩

/-! ## ExecPipe: the run() entry guard

Before any descriptor work, `ExecPipeImpl::run` (exec_pipe.cpp:987-989)
throws `std::runtime_error("No stages to in exec pipe.")` when the stage
list is empty.  `runPlan` models the guard and the whole phase 1
(exec_pipe.cpp:987-1094); the event list records every pipe / fcntl / open
call, so the error branch returning an empty event list states that the
empty-pipeline error precedes any descriptor creation. -/

/-- Input/output stream configuration tags (enum `stream_type`). -/
inductive StreamType where
  | none
  | str
  | obj
  | file
  | fdv
deriving Repr, DecidableEq

/-- Descriptor-creating syscalls of phase 1. -/
inductive Event where
  | mkPipe (r w : Int)
  | setNonblock (fd : Int)
  | openRead (fd : Int)
  | openWrite (fd : Int)
deriving Repr, DecidableEq

/-- Configuration an `ExecPipeImpl` holds when `run()` begins. -/
structure Engine where
  input_ : StreamType
  input_fd_ : Int
  output_ : StreamType
  output_fd_ : Int
  stages_ : List PStage
deriving Repr, DecidableEq

/-- Input-endpoint part of phase 1 (exec_pipe.cpp:994-1031), returning the
first stage's `stdin_fd`, the new parent-side `input_fd_`, the next free
descriptor number and the emitted events. -/
def inputSetup (e : Engine) (c : Nat) : Int × Int × Nat × List Event :=
  match e.input_ with
  | StreamType.none => (-1, e.input_fd_, c, [])
  | StreamType.str => ((c : Int), (c : Int) + 1, c + 2,
      [Event.mkPipe (c : Int) ((c : Int) + 1), Event.setNonblock ((c : Int) + 1)])
  | StreamType.obj => ((c : Int), (c : Int) + 1, c + 2,
      [Event.mkPipe (c : Int) ((c : Int) + 1), Event.setNonblock ((c : Int) + 1)])
  | StreamType.file => ((c : Int), e.input_fd_, c + 1, [Event.openRead (c : Int)])
  | StreamType.fdv => (e.input_fd_, -1, c, [])

/-- Output-endpoint part of phase 1 (exec_pipe.cpp:1057-1094), returning the
last stage's `stdout_fd`, the new parent-side `output_fd_`, the next free
descriptor number and the emitted events. -/
def outputSetup (e : Engine) (c : Nat) : Int × Int × Nat × List Event :=
  match e.output_ with
  | StreamType.none => (-1, e.output_fd_, c, [])
  | StreamType.str => ((c : Int) + 1, (c : Int), c + 2,
      [Event.mkPipe (c : Int) ((c : Int) + 1), Event.setNonblock (c : Int)])
  | StreamType.obj => ((c : Int) + 1, (c : Int), c + 2,
      [Event.mkPipe (c : Int) ((c : Int) + 1), Event.setNonblock (c : Int)])
  | StreamType.file => ((c : Int), e.output_fd_, c + 1, [Event.openWrite (c : Int)])
  | StreamType.fdv => (e.output_fd_, -1, c, [])

/-- Events emitted by one iteration of the stage-pipes loop. -/
def pipeEvents (p : StagePipe) : List Event :=
  [Event.mkPipe p.readFd p.writeFd]
    ++ (if p.writeNonblock then [Event.setNonblock p.writeFd] else [])
    ++ (if p.readNonblock then [Event.setNonblock p.readFd] else [])

/-- Assign the input descriptor to the first stage (`stages_[0].stdin_fd`). -/
def setHeadStdin : List PStage → Int → List PStage
  | [], _ => []
  | s :: rest, fd => { s with stdin_fd := fd } :: rest

/-- Assign the output descriptor to the last stage
(`stages_.back().stdout_fd`). -/
def setLastStdout : List PStage → Int → List PStage
  | [], _ => []
  | [s], fd => [{ s with stdout_fd := fd }]
  | s :: rest, fd => s :: setLastStdout rest fd

/-- Phase 1 of `run()` (exec_pipe.cpp:987-1094): the empty-pipeline guard
first, then input setup, one pipe per adjacent stage pair, and output
setup.  The first component lists the descriptor-creating calls in program
order; the error branch performs none. -/
def runPlan (e : Engine) :
    List Event × Except String (List PStage × List StagePipe) :=
  if e.stages_.length = 0 then
    ([], Except.error "No stages to in exec pipe.")
  else
    ((inputSetup e 0).2.2.2
        ++ (((stagePipes (setHeadStdin e.stages_ (inputSetup e 0).1)
              (inputSetup e 0).2.2.1).2.map pipeEvents).flatten)
        ++ (outputSetup e
            ((inputSetup e 0).2.2.1 + 2 * (e.stages_.length - 1))).2.2.2,
      Except.ok
        (setLastStdout
          (stagePipes (setHeadStdin e.stages_ (inputSetup e 0).1)
            (inputSetup e 0).2.2.1).1
          (outputSetup e
            ((inputSetup e 0).2.2.1 + 2 * (e.stages_.length - 1))).1,
        (stagePipes (setHeadStdin e.stages_ (inputSetup e 0).1)
          (inputSetup e 0).2.2.1).2))

/-- C7: `run()` on a pipeline with zero stages raises the structural
`runtime_error` before any descriptor is created or child spawned — the
plan emits no events and carries exactly the thrown message, leaving the
engine state untouched. -/
theorem claim_c7 (e : Engine) (h : e.stages_ = []) :
    runPlan e = ([], Except.error "No stages to in exec pipe.") := by
  unfold runPlan
  rw [if_pos (by rw [h]; rfl)]

/-- Witness for C7 on a concrete unconfigured engine with no stages. -/
theorem claim_c7_witness :
    (Engine.mk StreamType.none (-1) StreamType.none (-1) []).stages_ = [] ∧
    runPlan (Engine.mk StreamType.none (-1) StreamType.none (-1) [])
      = ([], Except.error "No stages to in exec pipe.") :=
  ⟨rfl, claim_c7 (Engine.mk StreamType.none (-1) StreamType.none (-1) []) rfl⟩

end Tlx
